import Mathlib

/-
Verification of the two scripts in the `clia` repository against their
natural-language specification.

The Python sources are shallowly embedded:
  * Python strings are modelled as `List Char` (named `Str` below); `s.lower()`
    is `lowerStr`, `startswith`/`endswith`/`in` are the list prefix / suffix /
    contiguous-sublist relations on character lists.
  * Python floats are modelled as exact rationals `ℚ`; `math.inf` is the `⊤`
    of `WithTop ℚ`.  `round(x, n)` is round-half-to-even at `n` decimal
    digits (`pyRound`).
  * Python `None` is `Option.none`.
  * `pandas.sort_values` over a key chain is a stable merge sort under the
    lexicographic boolean comparator of that key chain, and
    `groupby(key).first()` on a frame already sorted by `key` emits, per key
    group, a row holding each column's first non-null entry within the group
    (`distinctBy` picks the group heads, `groupFirst` builds that row; only
    the `id` and `name` columns are nullable).
-/

namespace Clia

/-- Python strings, modelled as lists of characters. -/
abbrev Str := List Char

/-- Python `s.lower()`. -/
def lowerStr (s : Str) : Str := s.map Char.toLower

/-- Python `a in s` for strings: `a` occurs as a contiguous substring of `s`. -/
def containsSub (s a : Str) : Bool := decide (a <:+: s)

/-! ## openrouter.py — constants (lines 5-7) -/

/-- Constant `BASE_CTX = 8000` (openrouter.py line 5). -/
def BASE_CTX : ℤ := 8000

/-- Constant `CTX_CAP = 524288` (openrouter.py line 6). -/
def CTX_CAP : ℤ := 524288

/-- Constant `W_IN = 0.5` (openrouter.py line 7). -/
def W_IN : ℚ := 1/2

/-- Constant `W_OUT = 0.5` (openrouter.py line 7). -/
def W_OUT : ℚ := 1/2

/-! ## openrouter.py — field extraction helpers -/

/-- The possible shapes of a raw `pricing` field as seen by `ffloat`
(openrouter.py lines 9-12): the key can be missing (`None`), hold one of the
null sentinels (`""` / `"null"`), hold a non-numeric value on which `float`
raises, or hold a numeric value. -/
inductive PriceField where
  | absent
  | nullLike
  | nonNumeric
  | num (q : ℚ)
deriving DecidableEq

/-- Function `ffloat` (openrouter.py lines 9-12): numeric values parse, everything
else normalises to `None`. -/
def ffloat : PriceField → Option ℚ
  | .num q => some q
  | _ => none

/-- A raw model record as consumed by the row-building loop: the `id` and
`name` string fields (possibly `None`), the `top_provider.context_length`
and `context_length` integer fields (possibly `None` / missing), and the two
`pricing` entries. -/
structure RawModel where
  id : Option Str
  name : Option Str
  topProviderCtx : Option ℤ
  contextLength : Option ℤ
  promptPrice : PriceField
  completionPrice : PriceField
deriving DecidableEq

/-- Python truthiness for an optional integer (`x or y` falls through on
`None` and on `0`). -/
def truthyInt : Option ℤ → Option ℤ
  | some c => if c = 0 then none else some c
  | none => none

/-- Function `ctx_of` (openrouter.py lines 14-16):
`int(m.get("top_provider", {}).get("context_length") or m.get("context_length") or 0)`. -/
def ctx_of (m : RawModel) : ℤ :=
  match truthyInt m.topProviderCtx with
  | some c => c
  | none =>
    match truthyInt m.contextLength with
    | some c => c
    | none => 0

/-- The string `s = (mid or "").lower() + " " + (name or "").lower()` used by
both `is_router` and `detect_free` (openrouter.py lines 19 and 23). -/
def joined (mid name : Option Str) : Str :=
  lowerStr (mid.getD []) ++ [' '] ++ lowerStr (name.getD [])

/-- Function `is_router` (openrouter.py lines 18-20). -/
def is_router (mid name : Option Str) : Bool :=
  let s := joined mid name
  decide ("openrouter/auto".toList <+: s) || containsSub s " router".toList
    || decide ("/auto".toList <:+ s)

/-- Function `detect_free` (openrouter.py lines 22-24). -/
def detect_free (mid name : Option Str) (p_in p_out : ℚ) : Bool :=
  containsSub (joined mid name) ":free".toList || (decide (p_in = 0) && decide (p_out = 0))

/-- Function `family` (openrouter.py lines 26-28): `(mid or "").split("/", 1)[0]`,
i.e. everything before the first `/` (the whole string when there is none). -/
def family (mid : Option Str) : Str :=
  (mid.getD []).takeWhile (fun c => !(c = '/' : Bool))

/-- Function `score` (openrouter.py lines 30-35).  `math.inf` is `⊤`. -/
def score (p_in p_out : ℚ) (ctx : ℤ) : WithTop ℚ :=
  if ctx ≤ 0 then ⊤
  else
    let ctx_eff : ℤ := min ctx CTX_CAP
    let avg : ℚ := W_IN * p_in + W_OUT * p_out
    let denom : ℚ := (ctx_eff : ℚ) / (BASE_CTX : ℚ)
    if 0 < denom then ((avg / denom : ℚ) : WithTop ℚ) else ⊤

/-! ## Python `round` -/

/-- Round a rational to the nearest integer, ties to even (the rounding mode
of Python's `round`). -/
def rndHalfEven (x : ℚ) : ℤ :=
  let f : ℤ := ⌊x⌋
  let r : ℚ := x - (f : ℚ)
  if r < 1/2 then f
  else if 1/2 < r then f + 1
  else if f % 2 = 0 then f else f + 1

/-- Python `round(x, n)` on our exact-rational model of floats. -/
def pyRound (x : ℚ) (n : ℕ) : ℚ := (rndHalfEven (x * 10 ^ n) : ℚ) / 10 ^ n

/-! ## openrouter.py — the normalized row set (lines 40-59) -/

/-- One row of the normalized frame (openrouter.py lines 49-59).  The
constant `streaming` column is omitted: it is the same literal string on
every row. -/
structure Row where
  id : Option Str
  name : Option Str
  family : Str
  context : ℤ
  price_in : ℚ
  price_out : ℚ
  score : WithTop ℚ
  free : Bool
deriving DecidableEq

/-- The body of the row-building loop (openrouter.py lines 41-59) for a
single raw record: `None` when the record is skipped by `continue`. -/
def mkRow (m : RawModel) : Option Row :=
  if is_router m.id m.name then none
  else
    let ctx := ctx_of m
    match ffloat m.promptPrice, ffloat m.completionPrice with
    | some p_in, some p_out =>
        if p_in < 0 ∨ p_out < 0 ∨ ctx ≤ 0 then none
        else some
          { id := m.id
            name := m.name
            family := family m.id
            context := ctx
            price_in := p_in
            price_out := p_out
            score := (score p_in p_out ctx).map (fun q => pyRound q 12)
            free := detect_free m.id m.name p_in p_out }
    | _, _ => none

/-- The frame `rows` (openrouter.py lines 40-59): the records surviving the filter. -/
def rows (models : List RawModel) : List Row := models.filterMap mkRow

/-! ## openrouter.py — sort-key comparators (lines 64-77) -/

/-- Lexicographic boolean comparator: order by the key `f` first, breaking
ties with `tail`.  This is how a `pandas.sort_values` key chain compares two
rows. -/
def lexLe {α γ : Type} [LinearOrder γ] (f : α → γ) (tail : α → α → Bool) (a b : α) : Bool :=
  if f a < f b then true else if f b < f a then false else tail a b

/-- Final tie-break `context` descending. -/
def ctxDesc (a b : Row) : Bool := decide (b.context ≤ a.context)

/-- The key chain `["score","price_in","price_out","context"]` with
`ascending=[True,True,True,False]` (openrouter.py lines 64-65 and 74-75). -/
def le10 : Row → Row → Bool :=
  lexLe Row.score (lexLe Row.price_in (lexLe Row.price_out ctxDesc))

/-- The key chain `["context","price_in","price_out"]` with
`ascending=[False,True,True]` (openrouter.py lines 69-70). -/
def leFree : Row → Row → Bool :=
  lexLe (fun r : Row => -r.context)
    (lexLe Row.price_in (lexLe Row.price_out (fun _ _ => true)))

/-- The key chain `["family","score","price_in","price_out","context"]`
(openrouter.py lines 74-75). -/
def leFam : Row → Row → Bool := lexLe Row.family le10

/-- The single-key sort `sort_values("score")` (openrouter.py line 77). -/
def leScore (a b : Row) : Bool := decide (a.score ≤ b.score)

/-- Keep the first element of each key group, in order of first occurrence
(`seen` accumulates the keys already kept).  On a frame sorted by the key
this is exactly `groupby(key).first()`. -/
def distinctByAux {α κ : Type} (key : α → κ) [DecidableEq κ] (seen : List κ) :
    List α → List α
  | [] => []
  | x :: xs =>
    if key x ∈ seen then distinctByAux key seen xs
    else x :: distinctByAux key (key x :: seen) xs

/-- Function `distinctBy key l`: the first element of `l` for each distinct key. -/
def distinctBy {α κ : Type} (key : α → κ) [DecidableEq κ] (l : List α) : List α :=
  distinctByAux key [] l

/-- View `top10` (openrouter.py lines 64-65). -/
def top10 (models : List RawModel) : List Row :=
  ((rows models).mergeSort le10).take 10

/-- View `free5` (openrouter.py lines 68-71). -/
def free5 (models : List RawModel) : List Row :=
  (((rows models).filter (fun r => r.free)).mergeSort leFree).take 5

/-- One output row of `groupby("family").first()` for the group of
`h.family` in the family-sorted frame `sorted`: pandas takes each column's
first non-null entry within the group.  Every column except `id` and `name`
is non-nullable, so those columns come from the group's first row `h`; the
`id` and `name` columns are the group's first non-null id and name (and
stay null when the whole group lacks them). -/
def groupFirst (sorted : List Row) (h : Row) : Row :=
  { h with
    id := ((sorted.filter (fun r => decide (r.family = h.family))).filterMap Row.id).head?
    name := ((sorted.filter (fun r => decide (r.family = h.family))).filterMap Row.name).head? }

/-- View `best_per_family` (openrouter.py lines 74-77): sort by
(family, score, price_in, price_out, context desc), take the heads of the
family groups, build each group's `groupby(...).first()` row from its head
and the group's first non-null id/name, then re-sort by score. -/
def best_per_family (models : List RawModel) : List Row :=
  let sorted := (rows models).mergeSort leFam
  ((distinctBy Row.family sorted).map (groupFirst sorted)).mergeSort leScore

/-- The presentation pass (openrouter.py lines 80-82): each view's price
columns are rounded to 10 decimals before being written. -/
def fmtRow (r : Row) : Row :=
  { r with price_in := pyRound r.price_in 10, price_out := pyRound r.price_out 10 }

/-- The `Top10_CustoBeneficio` sheet as written (openrouter.py lines 80-85). -/
def top10_sheet (models : List RawModel) : List Row := (top10 models).map fmtRow

/-- The `Top5_Free` sheet as written (openrouter.py lines 80-86). -/
def free5_sheet (models : List RawModel) : List Row := (free5 models).map fmtRow

/-- The `BestPerFamily` sheet as written (openrouter.py lines 80-87). -/
def best_per_family_sheet (models : List RawModel) : List Row :=
  (best_per_family models).map fmtRow

/-! ## npm-scan.py — IOC collection (lines 24-45)

The advisory texts are opaque here: no claim depends on the regex itself, so
the per-page extraction `pattern.findall` is a parameter `extract` of the
collection phase, and each URL's fetch outcome is an `Option Str`
(`none` = the request raised, `some text` = the page's visible text). -/

/-- An indicator of compromise: `{"package": name, "version": version}`
(npm-scan.py line 38). -/
structure IOC where
  package : Str
  version : Str
deriving DecidableEq

/-- The scraping loop's IOC accumulator (npm-scan.py lines 26-41): every
successful fetch appends that page's matches in order. -/
def collectIOCs (extract : Str → List IOC) (results : List (Option Str)) : List IOC :=
  (results.filterMap id).flatMap extract

/-- Flag `fetched_online` (npm-scan.py lines 29-41): true as soon as one URL's
fetch succeeds. -/
def fetched_online (results : List (Option Str)) : Bool :=
  results.any (fun r => r.isSome)

/-- The dict key `f"{ioc['package']}@{ioc['version']}"` (npm-scan.py line 44). -/
def iocKey (i : IOC) : Str := i.package ++ "@".toList ++ i.version

/-- The last list element with the given key, if any (a Python dict
comprehension keeps the last value written to a key). -/
def lastWithKey (l : List IOC) (k : Str) (dflt : IOC) : IOC :=
  (l.filter (fun j => decide (iocKey j = k))).getLastD dflt

/-- The list `iocs_list = list(unique_iocs.values())` (npm-scan.py lines 44-45): keys
in first-insertion order, each holding the last value written to it. -/
def unique_iocs (l : List IOC) : List IOC :=
  (distinctBy iocKey l).map (fun i => lastWithKey l (iocKey i) i)

/-! ## npm-scan.py — the lockfile document and the two walks (lines 56-81) -/

mutual

/-- A schema-v1 `dependencies` map (npm-scan.py lines 58-66): a finite map
from package name to entry, in iteration order. -/
inductive V1Deps where
  | nil : V1Deps
  | cons (name : Str) (entry : V1Entry) (rest : V1Deps) : V1Deps

/-- One schema-v1 entry: its optional `version` field and its optional
nested `dependencies` sub-map. -/
inductive V1Entry where
  | mk (version : Option Str) (sub : V1Sub) : V1Entry

/-- Presence or absence of the `"dependencies"` key in a v1 entry. -/
inductive V1Sub where
  | none : V1Sub
  | some (d : V1Deps) : V1Sub

end

/-- Python truthiness of `info.get("version")` (`if version:` skips both a
missing key and an empty string). -/
def vTruthy : Option Str → Option Str
  | Option.some v => if v = [] then Option.none else Option.some v
  | Option.none => Option.none

/-- The inner IOC loop shared by both walks (npm-scan.py lines 62-64 and
74-76): append every `ioc` of `iocs_list` whose (package, version) equals
the entry's, in list order. -/
def matchingIOCs (iocs_list : List IOC) (name version : Str) : List IOC :=
  iocs_list.filter (fun i => decide (i.package = name) && decide (i.version = version))

mutual

/-- Function `extract_from_v1` (npm-scan.py lines 58-66): the findings this walk
appends, in traversal order.  The recursion into a nested `dependencies`
sub-map happens whether or not the entry itself matched. -/
def extract_from_v1 (iocs_list : List IOC) : V1Deps → List IOC
  | .nil => []
  | .cons name entry rest =>
    extract_from_v1Entry iocs_list name entry ++ extract_from_v1 iocs_list rest

/-- The loop body of `extract_from_v1` for a single `(name, info)` item. -/
def extract_from_v1Entry (iocs_list : List IOC) (name : Str) : V1Entry → List IOC
  | .mk version sub =>
    (match vTruthy version with
      | Option.some v => matchingIOCs iocs_list name v
      | Option.none => []) ++ extract_from_v1Sub iocs_list sub

/-- The conditional recursion `if "dependencies" in info` of the v1 walk. -/
def extract_from_v1Sub (iocs_list : List IOC) : V1Sub → List IOC
  | .none => []
  | .some d => extract_from_v1 iocs_list d

end

/-- A schema-v2 `packages` value (npm-scan.py lines 68-76): the `version`
field of one path's object. -/
structure PkgInfo where
  version : Option Str
deriving DecidableEq

/-- Function `extract_from_v2` (npm-scan.py lines 68-76): keys starting with
`node_modules/` are inspected; the package name is the path segment right
after that marker (`path.split("/")[1]`). -/
def extract_from_v2 (iocs_list : List IOC) (packages : List (Str × PkgInfo)) : List IOC :=
  packages.flatMap fun item =>
    if decide ("node_modules/".toList <+: item.1) then
      match vTruthy item.2.version with
      | Option.some v => matchingIOCs iocs_list ((item.1.splitOn '/').getD 1 []) v
      | Option.none => []
    else []

/-- The parsed lockfile document, as the dispatch (npm-scan.py lines 78-81)
sees it: presence and contents of the two top-level keys it inspects. -/
structure LockData where
  packages : Option (List (Str × PkgInfo))
  dependencies : Option V1Deps

/-- The list `found` (npm-scan.py lines 56-81): the schema dispatch and the chosen
walk's findings. -/
def found (iocs_list : List IOC) (lock : LockData) : List IOC :=
  match lock.packages with
  | Option.some p => extract_from_v2 iocs_list p
  | Option.none =>
    match lock.dependencies with
    | Option.some d => extract_from_v1 iocs_list d
    | Option.none => []

/-- Function `status` (npm-scan.py line 83). -/
def status (findings : List IOC) : Str :=
  if findings = [] then "clean".toList else "compromised".toList

/-! ## npm-scan.py — process outcome (lines 48-50 and normal completion) -/

/-- The observable outcome of one run of Pipeline A: either the early fatal
exit of the missing-lockfile check, or normal completion with its report. -/
inductive RunResult where
  | fatal (code : ℕ) (msg : Str) : RunResult
  | ok (status : Str) (findings : List IOC) (fetchedOnline : Bool) : RunResult
deriving DecidableEq

/-- The process exit code of an outcome: `sys.exit(2)` on the fatal path,
`0` when the script runs to the end of the file. -/
def exitCodeOf : RunResult → ℕ
  | .fatal c _ => c
  | .ok _ _ _ => 0

/-- The user-facing message of npm-scan.py line 49. -/
def missingMsg (path : Str) : Str :=
  "Arquivo '".toList ++ path ++ "' não encontrado.".toList

/-- The run after argument parsing and IOC collection (npm-scan.py lines
48-113): `isFile` is whether `os.path.isfile(lockfile_path)` holds, `lock`
the parsed document of an existing lockfile. -/
def runScan (isFile : Bool) (path : Str) (iocs_list : List IOC) (lock : LockData)
    (results : List (Option Str)) : RunResult :=
  if isFile then
    RunResult.ok (status (found iocs_list lock)) (found iocs_list lock) (fetched_online results)
  else
    RunResult.fatal 2 (missingMsg path)

/-! ## npm-scan.py — auxiliary notions used only in statements -/

mutual

/-- Every `(name, version-field)` item of a v1 map, at every nesting depth,
in traversal order.  This is what "the walk visits everything" quantifies
over. -/
def v1Items : V1Deps → List (Str × Option Str)
  | .nil => []
  | .cons name entry rest => v1ItemsOfEntry name entry ++ v1Items rest

/-- Items contributed by a single named entry: itself and its subtree's. -/
def v1ItemsOfEntry (name : Str) : V1Entry → List (Str × Option Str)
  | .mk version sub => (name, version) :: v1ItemsOfSub sub

/-- Items of an optional `dependencies` sub-map. -/
def v1ItemsOfSub : V1Sub → List (Str × Option Str)
  | .none => []
  | .some d => v1Items d

end

/-! ## npm-scan.py — lemmas -/

theorem matchingIOCs_subset (iocs_list : List IOC) (name v : Str) :
    matchingIOCs iocs_list name v ⊆ iocs_list := by
  intro i hi
  exact (List.mem_filter.mp hi).1

theorem matchingIOCs_nil (name v : Str) : matchingIOCs [] name v = [] := rfl

mutual

theorem extract_from_v1_subset (iocs_list : List IOC) (d : V1Deps) :
    extract_from_v1 iocs_list d ⊆ iocs_list := by
  cases d with
  | nil => intro i hi; cases hi
  | cons name entry rest =>
    intro i hi
    rcases List.mem_append.mp hi with h | h
    · exact extract_from_v1Entry_subset iocs_list name entry h
    · exact extract_from_v1_subset iocs_list rest h

theorem extract_from_v1Entry_subset (iocs_list : List IOC) (name : Str) (e : V1Entry) :
    extract_from_v1Entry iocs_list name e ⊆ iocs_list := by
  cases e with
  | mk version sub =>
    intro i hi
    simp only [extract_from_v1Entry, List.mem_append] at hi
    rcases hi with h | h
    · cases hv : vTruthy version with
      | some v =>
        rw [hv] at h
        exact matchingIOCs_subset iocs_list name v h
      | none =>
        rw [hv] at h
        cases h
    · exact extract_from_v1Sub_subset iocs_list sub h

theorem extract_from_v1Sub_subset (iocs_list : List IOC) (s : V1Sub) :
    extract_from_v1Sub iocs_list s ⊆ iocs_list := by
  cases s with
  | none => intro i hi; cases hi
  | some d => exact extract_from_v1_subset iocs_list d

end

theorem extract_from_v2_subset (iocs_list : List IOC) (packages : List (Str × PkgInfo)) :
    extract_from_v2 iocs_list packages ⊆ iocs_list := by
  intro i hi
  rw [extract_from_v2] at hi
  rcases List.mem_flatMap.mp hi with ⟨item, _, hmem⟩
  by_cases hpfx : decide ("node_modules/".toList <+: item.1) = true
  · rw [if_pos hpfx] at hmem
    cases hv : vTruthy item.2.version with
    | some v =>
      rw [hv] at hmem
      exact matchingIOCs_subset iocs_list _ v hmem
    | none => rw [hv] at hmem; cases hmem
  · rw [if_neg hpfx] at hmem; cases hmem

theorem found_subset (iocs_list : List IOC) (lock : LockData) :
    found iocs_list lock ⊆ iocs_list := by
  rw [found]
  cases lock.packages with
  | some p => exact extract_from_v2_subset iocs_list p
  | none =>
    cases lock.dependencies with
    | some d => exact extract_from_v1_subset iocs_list d
    | none => intro i hi; cases hi

theorem found_nil (lock : LockData) : found [] lock = [] := by
  have hsub := found_subset [] lock
  cases hf : found [] lock with
  | nil => rfl
  | cons x xs =>
    exact absurd (hsub (by rw [hf]; exact List.mem_cons_self x xs)) (by intro h; cases h)

mutual

theorem v1_complete (iocs_list : List IOC) (i : IOC) (d : V1Deps) (name : Str)
    (vo : Option Str) (hmem : (name, vo) ∈ v1Items d)
    (hv : vTruthy vo = Option.some i.version) (hp : i.package = name)
    (hi : i ∈ iocs_list) : i ∈ extract_from_v1 iocs_list d := by
  cases d with
  | nil => cases hmem
  | cons n e rest =>
    simp only [v1Items, List.mem_append] at hmem
    show i ∈ extract_from_v1Entry iocs_list n e ++ extract_from_v1 iocs_list rest
    rcases hmem with h | h
    · exact List.mem_append_left _ (v1Entry_complete iocs_list i n e name vo h hv hp hi)
    · exact List.mem_append_right _ (v1_complete iocs_list i rest name vo h hv hp hi)

theorem v1Entry_complete (iocs_list : List IOC) (i : IOC) (n : Str) (e : V1Entry)
    (name : Str) (vo : Option Str) (hmem : (name, vo) ∈ v1ItemsOfEntry n e)
    (hv : vTruthy vo = Option.some i.version) (hp : i.package = name)
    (hi : i ∈ iocs_list) : i ∈ extract_from_v1Entry iocs_list n e := by
  cases e with
  | mk version sub =>
    simp only [v1ItemsOfEntry, List.mem_cons] at hmem
    show i ∈ (match vTruthy version with
      | Option.some v => matchingIOCs iocs_list n v
      | Option.none => []) ++ extract_from_v1Sub iocs_list sub
    rcases hmem with h | h
    · have hn : name = n := congrArg Prod.fst h
      have hvo : vo = version := congrArg Prod.snd h
      apply List.mem_append_left
      rw [← hvo, hv]
      refine List.mem_filter.mpr ⟨hi, ?_⟩
      simp [hp, hn]
    · exact List.mem_append_right _ (v1Sub_complete iocs_list i sub name vo h hv hp hi)

theorem v1Sub_complete (iocs_list : List IOC) (i : IOC) (s : V1Sub) (name : Str)
    (vo : Option Str) (hmem : (name, vo) ∈ v1ItemsOfSub s)
    (hv : vTruthy vo = Option.some i.version) (hp : i.package = name)
    (hi : i ∈ iocs_list) : i ∈ extract_from_v1Sub iocs_list s := by
  cases s with
  | none => cases hmem
  | some d => exact v1_complete iocs_list i d name vo hmem hv hp hi

end

theorem collectIOCs_of_all_failed (extract : Str → List IOC)
    (results : List (Option Str)) (h : results.all (fun r => r.isNone) = true) :
    collectIOCs extract results = [] := by
  rw [collectIOCs]
  have h1 : results.filterMap id = [] := by
    rw [List.filterMap_eq_nil_iff]
    intro a ha
    have := (List.all_eq_true.mp h) a ha
    exact Option.isNone_iff_eq_none.mp this
  rw [h1]
  rfl

/-! ## Claim theorems for npm-scan.py -/

/-- Claim C3: when every advisory fetch failed, the deduplicated IOC set is
empty, every lockfile document yields an empty findings list and the status
`"clean"`, and `fetched_online` is `false`. -/
theorem fetch_failure_clean (extract : Str → List IOC) (results : List (Option Str))
    (lock : LockData) (h : results.all (fun r => r.isNone) = true) :
    unique_iocs (collectIOCs extract results) = []
      ∧ found (unique_iocs (collectIOCs extract results)) lock = []
      ∧ status (found (unique_iocs (collectIOCs extract results)) lock) = "clean".toList
      ∧ fetched_online results = false := by
  have hc : collectIOCs extract results = [] := collectIOCs_of_all_failed extract results h
  have hu : unique_iocs (collectIOCs extract results) = [] := by rw [hc]; rfl
  have hf : found (unique_iocs (collectIOCs extract results)) lock = [] := by
    rw [hu]; exact found_nil lock
  refine ⟨hu, hf, by rw [hf]; rfl, ?_⟩
  rw [fetched_online]
  rw [List.any_eq_false]
  intro a ha
  have := (List.all_eq_true.mp h) a ha
  rw [Option.isNone_iff_eq_none] at this
  rw [this]
  simp

/-- Witness for C3 at one totally-failed fetch list and the empty lockfile
document. -/
theorem fetch_failure_clean_witness :
    unique_iocs (collectIOCs (fun _ => []) [Option.none]) = []
      ∧ found (unique_iocs (collectIOCs (fun _ => []) [Option.none]))
          ⟨Option.none, Option.none⟩ = []
      ∧ status (found (unique_iocs (collectIOCs (fun _ => []) [Option.none]))
          ⟨Option.none, Option.none⟩) = "clean".toList
      ∧ fetched_online [Option.none] = false :=
  fetch_failure_clean (fun _ => []) [Option.none] ⟨Option.none, Option.none⟩ (by decide)

/-- Claim C4: the schema-v1 walk reaches entries at every nesting depth, so
any entry anywhere in the tree whose name and (truthy) version equal an
IOC's is appended to the findings. -/
theorem v1_deep_match_found (iocs_list : List IOC) (i : IOC) (d : V1Deps)
    (name : Str) (vo : Option Str) (hmem : (name, vo) ∈ v1Items d)
    (hv : vTruthy vo = Option.some i.version) (hp : i.package = name)
    (hi : i ∈ iocs_list) : i ∈ extract_from_v1 iocs_list d :=
  v1_complete iocs_list i d name vo hmem hv hp hi

/-- Witness for C4: a three-level-deep v1 tree in which only the deepest
entry matches the single IOC, and that match is found. -/
theorem v1_deep_match_found_witness :
    (⟨"chalk".toList, "5.6.1".toList⟩ : IOC) ∈ extract_from_v1
      [⟨"chalk".toList, "5.6.1".toList⟩]
      (V1Deps.cons "a".toList
        (V1Entry.mk (Option.some "1.0.0".toList)
          (V1Sub.some (V1Deps.cons "b".toList
            (V1Entry.mk (Option.some "2.0.0".toList)
              (V1Sub.some (V1Deps.cons "chalk".toList
                (V1Entry.mk (Option.some "5.6.1".toList) V1Sub.none)
                V1Deps.nil)))
            V1Deps.nil)))
        V1Deps.nil) :=
  v1_deep_match_found [⟨"chalk".toList, "5.6.1".toList⟩]
    ⟨"chalk".toList, "5.6.1".toList⟩ _ "chalk".toList (Option.some "5.6.1".toList)
    (by decide) (by decide) (by decide) (by decide)

/-- Claim C8: the schema dispatch uses the v2 walk whenever a top-level
`packages` key is present (even alongside `dependencies`), falls back to the
recursive v1 walk on a `dependencies` key, and scans nothing when neither
key exists. -/
theorem schema_dispatch (iocs_list : List IOC) (p : List (Str × PkgInfo)) (d : V1Deps) :
    found iocs_list ⟨Option.some p, Option.some d⟩ = extract_from_v2 iocs_list p
      ∧ found iocs_list ⟨Option.some p, Option.none⟩ = extract_from_v2 iocs_list p
      ∧ found iocs_list ⟨Option.none, Option.some d⟩ = extract_from_v1 iocs_list d
      ∧ found iocs_list ⟨Option.none, Option.none⟩ = [] :=
  ⟨rfl, rfl, rfl, rfl⟩

/-- Claim C9: a run over an existing lockfile completes normally with exit
status 0 whatever the scan's outcome, and a missing lockfile is the exact
condition for the distinct exit status 2, whose user-facing message names
the missing path. -/
theorem exit_status_spec (path : Str) (iocs_list : List IOC) (lock : LockData)
    (results : List (Option Str)) :
    runScan true path iocs_list lock results
        = RunResult.ok (status (found iocs_list lock)) (found iocs_list lock)
            (fetched_online results)
      ∧ (∀ isFile : Bool,
          exitCodeOf (runScan isFile path iocs_list lock results) = 0 ↔ isFile = true)
      ∧ runScan false path iocs_list lock results = RunResult.fatal 2 (missingMsg path)
      ∧ (2 : ℕ) ≠ 0
      ∧ (∃ a b : Str, missingMsg path = a ++ path ++ b) := by
  refine ⟨rfl, ?_, rfl, by decide, "Arquivo '".toList, "' não encontrado.".toList, rfl⟩
  intro isFile
  cases isFile with
  | false => simp [runScan, exitCodeOf]
  | true => simp [runScan, exitCodeOf]

/-- Claim C10: every finding is an element of the deduplicated IOC list that
the report emits as `iocs_source`. -/
theorem findings_subset_iocs (raw : List IOC) (lock : LockData) :
    found (unique_iocs raw) lock ⊆ unique_iocs raw :=
  found_subset (unique_iocs raw) lock

/-! ## Comparator lemmas -/

theorem lexLe_eq_true_iff {α γ : Type} [LinearOrder γ] (f : α → γ) (t : α → α → Bool)
    (a b : α) :
    lexLe f t a b = true ↔ f a < f b ∨ (f a = f b ∧ t a b = true) := by
  rw [lexLe]
  split_ifs with h1 h2
  · simp [h1]
  · have hne : f a ≠ f b := ne_of_gt h2
    have hnlt : ¬ f a < f b := not_lt.mpr (le_of_lt h2)
    simp [hne, hnlt]
  · have he : f a = f b := le_antisymm (not_lt.mp h2) (not_lt.mp h1)
    simp [he]

theorem lexLe_total {α γ : Type} [LinearOrder γ] (f : α → γ) (t : α → α → Bool)
    (ht : ∀ a b, (t a b || t b a) = true) (a b : α) :
    (lexLe f t a b || lexLe f t b a) = true := by
  rcases lt_trichotomy (f a) (f b) with h | h | h
  · have : lexLe f t a b = true := (lexLe_eq_true_iff f t a b).mpr (Or.inl h)
    simp [this]
  · rcases Bool.or_eq_true_iff.mp (ht a b) with h1 | h1
    · have : lexLe f t a b = true := (lexLe_eq_true_iff f t a b).mpr (Or.inr ⟨h, h1⟩)
      simp [this]
    · have : lexLe f t b a = true := (lexLe_eq_true_iff f t b a).mpr (Or.inr ⟨h.symm, h1⟩)
      simp [this]
  · have : lexLe f t b a = true := (lexLe_eq_true_iff f t b a).mpr (Or.inl h)
    simp [this]

theorem lexLe_trans {α γ : Type} [LinearOrder γ] (f : α → γ) (t : α → α → Bool)
    (ht : ∀ a b c, t a b = true → t b c = true → t a c = true) (a b c : α)
    (hab : lexLe f t a b = true) (hbc : lexLe f t b c = true) :
    lexLe f t a c = true := by
  rw [lexLe_eq_true_iff] at hab hbc ⊢
  rcases hab with h1 | ⟨h1, h1t⟩
  · rcases hbc with h2 | ⟨h2, _⟩
    · exact Or.inl (lt_trans h1 h2)
    · exact Or.inl (h2 ▸ h1)
  · rcases hbc with h2 | ⟨h2, h2t⟩
    · exact Or.inl (h1 ▸ h2)
    · exact Or.inr ⟨h1.trans h2, ht a b c h1t h2t⟩

theorem lexLe_refl {α γ : Type} [LinearOrder γ] (f : α → γ) (t : α → α → Bool)
    (ht : ∀ a, t a a = true) (a : α) : lexLe f t a a = true :=
  (lexLe_eq_true_iff f t a a).mpr (Or.inr ⟨rfl, ht a⟩)

theorem lexLe_of_eq_key {α γ : Type} [LinearOrder γ] (f : α → γ) (t : α → α → Bool)
    (a b : α) (he : f a = f b) (h : lexLe f t a b = true) : t a b = true := by
  rcases (lexLe_eq_true_iff f t a b).mp h with h1 | ⟨_, h1⟩
  · exact absurd h1 (by simp [he])
  · exact h1

theorem ctxDesc_total (a b : Row) : (ctxDesc a b || ctxDesc b a) = true := by
  rw [ctxDesc, ctxDesc]
  rcases le_total b.context a.context with h | h <;> simp [h]

theorem ctxDesc_trans (a b c : Row) (h1 : ctxDesc a b = true) (h2 : ctxDesc b c = true) :
    ctxDesc a c = true := by
  rw [ctxDesc] at h1 h2 ⊢
  rw [decide_eq_true_iff] at h1 h2 ⊢
  exact le_trans h2 h1

theorem le10_total (a b : Row) : (le10 a b || le10 b a) = true := by
  apply lexLe_total
  intro x y
  apply lexLe_total
  intro u v
  apply lexLe_total
  intro s w
  exact ctxDesc_total s w

theorem le10_trans (a b c : Row) (h1 : le10 a b = true) (h2 : le10 b c = true) :
    le10 a c = true := by
  revert h1 h2
  apply lexLe_trans
  intro x y z
  apply lexLe_trans
  intro u v w
  apply lexLe_trans
  intro s r q
  exact ctxDesc_trans s r q

theorem le10_refl (a : Row) : le10 a a = true := by
  apply lexLe_refl
  intro x
  apply lexLe_refl
  intro y
  apply lexLe_refl
  intro z
  rw [ctxDesc]
  simp

theorem leFam_total (a b : Row) : (leFam a b || leFam b a) = true :=
  lexLe_total Row.family le10 le10_total a b

theorem leFam_trans (a b c : Row) (h1 : leFam a b = true) (h2 : leFam b c = true) :
    leFam a c = true :=
  lexLe_trans Row.family le10 le10_trans a b c h1 h2

theorem leFree_total (a b : Row) : (leFree a b || leFree b a) = true := by
  apply lexLe_total
  intro x y
  apply lexLe_total
  intro u v
  apply lexLe_total
  intro s w
  rfl

theorem leFree_trans (a b c : Row) (h1 : leFree a b = true) (h2 : leFree b c = true) :
    leFree a c = true := by
  revert h1 h2
  apply lexLe_trans
  intro x y z
  apply lexLe_trans
  intro u v w
  apply lexLe_trans
  intro s r q h1 h2
  rfl

theorem leScore_total (a b : Row) : (leScore a b || leScore b a) = true := by
  rw [leScore, leScore]
  rcases le_total a.score b.score with h | h <;> simp [h]

theorem leScore_trans (a b c : Row) (h1 : leScore a b = true) (h2 : leScore b c = true) :
    leScore a c = true := by
  rw [leScore] at h1 h2 ⊢
  rw [decide_eq_true_iff] at h1 h2 ⊢
  exact le_trans h1 h2

/-! ## distinctBy lemmas -/

theorem distinctByAux_sublist {α κ : Type} (key : α → κ) [DecidableEq κ]
    (seen : List κ) (l : List α) : (distinctByAux key seen l).Sublist l := by
  induction l generalizing seen with
  | nil => exact List.Sublist.refl []
  | cons x xs ih =>
    rw [distinctByAux]
    split_ifs with h
    · exact (ih seen).cons x
    · exact (ih (key x :: seen)).cons₂ x

theorem distinctByAux_mem {α κ : Type} (key : α → κ) [DecidableEq κ]
    (seen : List κ) (l : List α) :
    ∀ x ∈ distinctByAux key seen l, x ∈ l ∧ key x ∉ seen := by
  induction l generalizing seen with
  | nil => intro x hx; cases hx
  | cons z zs ih =>
    intro x hx
    rw [distinctByAux] at hx
    split_ifs at hx with h
    · obtain ⟨h1, h2⟩ := ih seen x hx
      exact ⟨List.mem_cons_of_mem z h1, h2⟩
    · rcases List.mem_cons.mp hx with rfl | hx'
      · exact ⟨List.mem_cons_self x zs, h⟩
      · obtain ⟨h1, h2⟩ := ih (key z :: seen) x hx'
        exact ⟨List.mem_cons_of_mem z h1, fun hc => h2 (List.mem_cons_of_mem _ hc)⟩

theorem distinctByAux_keys_nodup {α κ : Type} (key : α → κ) [DecidableEq κ]
    (seen : List κ) (l : List α) :
    ((distinctByAux key seen l).map key).Nodup := by
  induction l generalizing seen with
  | nil => exact List.nodup_nil
  | cons z zs ih =>
    rw [distinctByAux]
    split_ifs with h
    · exact ih seen
    · rw [List.map_cons]
      refine List.nodup_cons.mpr ⟨?_, ih (key z :: seen)⟩
      intro hc
      rcases List.mem_map.mp hc with ⟨x, hx, hkx⟩
      exact (distinctByAux_mem key (key z :: seen) zs x hx).2
        (hkx ▸ List.mem_cons_self (key z) seen)

theorem distinctByAux_keys_mem {α κ : Type} (key : α → κ) [DecidableEq κ]
    (seen : List κ) (l : List α) (k : κ) :
    k ∈ (distinctByAux key seen l).map key ↔ (k ∈ l.map key ∧ k ∉ seen) := by
  induction l generalizing seen with
  | nil => simp [distinctByAux]
  | cons z zs ih =>
    rw [distinctByAux]
    split_ifs with h
    · rw [ih seen, List.map_cons]
      constructor
      · intro ⟨h1, h2⟩
        exact ⟨List.mem_cons_of_mem _ h1, h2⟩
      · intro ⟨h1, h2⟩
        rcases List.mem_cons.mp h1 with rfl | h1'
        · exact absurd h h2
        · exact ⟨h1', h2⟩
    · rw [List.map_cons, List.map_cons, List.mem_cons, List.mem_cons, ih (key z :: seen)]
      constructor
      · intro hc
        rcases hc with rfl | ⟨h1, h2⟩
        · exact ⟨Or.inl rfl, h⟩
        · exact ⟨Or.inr h1, fun hc2 => h2 (List.mem_cons_of_mem _ hc2)⟩
      · intro ⟨h1, h2⟩
        rcases h1 with rfl | h1'
        · exact Or.inl rfl
        · by_cases hk : k = key z
          · exact Or.inl hk
          · exact Or.inr ⟨h1', by simp [List.mem_cons, hk, h2]⟩

theorem distinctByAux_min (l : List Row) (seen : List Str)
    (hp : l.Pairwise (fun a b => leFam a b = true)) :
    ∀ x ∈ distinctByAux Row.family seen l, ∀ y ∈ l, y.family = x.family →
      le10 x y = true := by
  induction l generalizing seen with
  | nil => intro x hx; cases hx
  | cons z zs ih =>
    obtain ⟨hhead, htail⟩ := List.pairwise_cons.mp hp
    intro x hx y hy hfam
    rw [distinctByAux] at hx
    split_ifs at hx with hz
    · rcases List.mem_cons.mp hy with rfl | hy'
      · have := (distinctByAux_mem Row.family seen zs x hx).2
        exact absurd (hfam ▸ hz) this
      · exact ih seen htail x hx y hy' hfam
    · rcases List.mem_cons.mp hx with hxz | hx'
      · rcases List.mem_cons.mp hy with hyz | hy'
        · rw [hxz, hyz]; exact le10_refl z
        · rw [hxz]
          refine lexLe_of_eq_key Row.family le10 z y ?_ (hhead y hy')
          rw [← hxz]
          exact hfam.symm
      · rcases List.mem_cons.mp hy with hyz | hy'
        · have hnot := (distinctByAux_mem Row.family (z.family :: seen) zs x hx').2
          have hzf : z.family = x.family := by rw [← hyz]; exact hfam
          exact absurd (hzf ▸ List.mem_cons_self z.family seen) hnot
        · exact ih (z.family :: seen) htail x hx' y hy' hfam

/-! ## Row-set lemmas -/

/-- A row is acceptable for ranking: positive context and non-negative
prices.  (Absence of a price cannot even be represented in a `Row`.) -/
def goodRow (r : Row) : Bool :=
  decide (0 < r.context) && decide (0 ≤ r.price_in) && decide (0 ≤ r.price_out)

theorem mkRow_good (m : RawModel) (r : Row) (h : mkRow m = Option.some r) :
    0 < r.context ∧ 0 ≤ r.price_in ∧ 0 ≤ r.price_out := by
  simp only [mkRow] at h
  split at h
  · exact Option.noConfusion h
  · split at h
    · split_ifs at h with hcond
      all_goals first
        | exact Option.noConfusion h
        | (push_neg at hcond
           obtain ⟨h1, h2, h3⟩ := hcond
           have hr2 := Option.some.inj h
           rw [← hr2]
           exact ⟨h3, h1, h2⟩)
    · exact Option.noConfusion h

theorem mkRow_skips_bad (m : RawModel)
    (hbad : ctx_of m ≤ 0 ∨ ffloat m.promptPrice = Option.none
      ∨ ffloat m.completionPrice = Option.none
      ∨ (∃ q, ffloat m.promptPrice = Option.some q ∧ q < 0)
      ∨ (∃ q, ffloat m.completionPrice = Option.some q ∧ q < 0)) :
    mkRow m = Option.none := by
  simp only [mkRow]
  split
  · rfl
  · split
    · next p_in p_out hp hq =>
      rcases hbad with h | h | h | ⟨u, hu2, hu3⟩ | ⟨u, hu2, hu3⟩
      · rw [if_pos (Or.inr (Or.inr h))]
      · rw [hp] at h; exact Option.noConfusion h
      · rw [hq] at h; exact Option.noConfusion h
      · rw [hp] at hu2
        have hpq := Option.some.inj hu2
        rw [if_pos (Or.inl (hpq ▸ hu3))]
      · rw [hq] at hu2
        have hpq := Option.some.inj hu2
        rw [if_pos (Or.inr (Or.inl (hpq ▸ hu3)))]
    · rfl

theorem rows_all_good (models : List RawModel) : (rows models).all goodRow = true := by
  rw [List.all_eq_true]
  intro r hr
  rcases List.mem_filterMap.mp hr with ⟨m, _, hm⟩
  obtain ⟨h1, h2, h3⟩ := mkRow_good m r hm
  rw [goodRow]
  simp [h1, h2, h3]

theorem rndHalfEven_nonneg (x : ℚ) (h : 0 ≤ x) : 0 ≤ rndHalfEven x := by
  rw [rndHalfEven]
  have hf : (0:ℤ) ≤ ⌊x⌋ := Int.floor_nonneg.mpr h
  split_ifs <;> omega

theorem pyRound_nonneg (x : ℚ) (n : ℕ) (h : 0 ≤ x) : 0 ≤ pyRound x n := by
  rw [pyRound]
  apply div_nonneg
  · exact_mod_cast rndHalfEven_nonneg _ (by positivity)
  · positivity

theorem fmtRow_good (r : Row) (h : goodRow r = true) : goodRow (fmtRow r) = true := by
  rw [goodRow] at h ⊢
  simp only [Bool.and_eq_true, decide_eq_true_iff] at h ⊢
  exact ⟨⟨h.1.1, pyRound_nonneg _ _ h.1.2⟩, pyRound_nonneg _ _ h.2⟩

theorem top10_subperm (models : List RawModel) : (top10 models).Subperm (rows models) := by
  rw [top10]
  exact ((List.take_sublist _ _).subperm).trans ((List.mergeSort_perm _ _).subperm)

theorem free5_subperm (models : List RawModel) : (free5 models).Subperm (rows models) := by
  rw [free5]
  exact ((List.take_sublist _ _).subperm).trans
    (((List.mergeSort_perm _ _).subperm).trans ((List.filter_sublist _).subperm))

theorem sortedFam_pairwise (models : List RawModel) :
    ((rows models).mergeSort leFam).Pairwise (fun a b => leFam a b = true) :=
  List.sorted_mergeSort leFam_trans leFam_total (rows models)

theorem groupFirst_family (sorted : List Row) (h : Row) :
    (groupFirst sorted h).family = h.family := rfl

theorem goodRow_groupFirst (sorted : List Row) (h : Row) :
    goodRow (groupFirst sorted h) = goodRow h := rfl

theorem best_per_family_provenance (models : List RawModel) (r : Row)
    (hr : r ∈ best_per_family models) :
    ∃ h, h ∈ distinctBy Row.family ((rows models).mergeSort leFam)
      ∧ h ∈ rows models
      ∧ r = groupFirst ((rows models).mergeSort leFam) h
      ∧ (∀ y ∈ rows models, y.family = h.family → le10 h y = true) := by
  simp only [best_per_family] at hr
  have hp : r ∈ (distinctBy Row.family ((rows models).mergeSort leFam)).map
      (groupFirst ((rows models).mergeSort leFam)) :=
    (List.mergeSort_perm _ leScore).mem_iff.mp hr
  rcases List.mem_map.mp hp with ⟨h, hh, heq⟩
  have hhS : h ∈ (rows models).mergeSort leFam :=
    (distinctByAux_mem Row.family [] _ h hh).1
  have hhR : h ∈ rows models := (List.mergeSort_perm _ leFam).mem_iff.mp hhS
  refine ⟨h, hh, hhR, heq.symm, ?_⟩
  intro y hy hfam
  exact distinctByAux_min _ [] (sortedFam_pairwise models) h hh y
    ((List.mergeSort_perm _ leFam).mem_iff.mpr hy) hfam

theorem best_per_family_all_good (models : List RawModel) :
    (best_per_family models).all goodRow = true := by
  rw [List.all_eq_true]
  intro r hr
  rcases best_per_family_provenance models r hr with ⟨h, _, hhR, heq, _⟩
  rw [heq, goodRow_groupFirst]
  exact List.all_eq_true.mp (rows_all_good models) h hhR

theorem view_all_good (models : List RawModel) (view : List Row)
    (hsub : view.Subperm (rows models)) : view.all goodRow = true := by
  rw [List.all_eq_true]
  intro r hr
  exact List.all_eq_true.mp (rows_all_good models) r (hsub.subset hr)

theorem sheet_all_good (view : List Row) (hall : view.all goodRow = true) :
    (view.map fmtRow).all goodRow = true := by
  rw [List.all_eq_true]
  intro r hr
  rcases List.mem_map.mp hr with ⟨s, hs, hsr⟩
  rw [← hsr]
  exact fmtRow_good s (List.all_eq_true.mp hall s hs)

/-- Claim C2: no record with non-positive context or an absent or negative
price survives normalization; every normalized row has positive context and
non-negative prices; the top-10 and free-5 views draw their rows from the
normalized set; every best-per-family row takes its family, context, prices,
score and free flag from a normalized row (only its nullable id/name columns
are back-filled by groupby-first); so all three views and all three written
sheets contain only rows with positive context and non-negative prices. -/
theorem normalization_excludes_bad (models : List RawModel) :
    (∀ m : RawModel,
        (ctx_of m ≤ 0 ∨ ffloat m.promptPrice = Option.none
          ∨ ffloat m.completionPrice = Option.none
          ∨ (∃ q, ffloat m.promptPrice = Option.some q ∧ q < 0)
          ∨ (∃ q, ffloat m.completionPrice = Option.some q ∧ q < 0)) →
        mkRow m = Option.none)
      ∧ (rows models).all goodRow = true
      ∧ (top10 models).Subperm (rows models)
      ∧ (free5 models).Subperm (rows models)
      ∧ (∀ r ∈ best_per_family models, ∃ s, s ∈ rows models
          ∧ s.family = r.family ∧ s.context = r.context ∧ s.price_in = r.price_in
          ∧ s.price_out = r.price_out ∧ s.score = r.score ∧ s.free = r.free)
      ∧ (top10 models).all goodRow = true
      ∧ (free5 models).all goodRow = true
      ∧ (best_per_family models).all goodRow = true
      ∧ (top10_sheet models).all goodRow = true
      ∧ (free5_sheet models).all goodRow = true
      ∧ (best_per_family_sheet models).all goodRow = true := by
  refine ⟨fun m => mkRow_skips_bad m, rows_all_good models,
    top10_subperm models, free5_subperm models, ?_,
    view_all_good models _ (top10_subperm models),
    view_all_good models _ (free5_subperm models),
    best_per_family_all_good models,
    sheet_all_good _ (view_all_good models _ (top10_subperm models)),
    sheet_all_good _ (view_all_good models _ (free5_subperm models)),
    sheet_all_good _ (best_per_family_all_good models)⟩
  intro r hr
  rcases best_per_family_provenance models r hr with ⟨h, _, hhR, heq, _⟩
  exact ⟨h, hhR, by rw [heq]; rfl, by rw [heq]; rfl, by rw [heq]; rfl,
    by rw [heq]; rfl, by rw [heq]; rfl, by rw [heq]; rfl⟩

/-! ## Score lemmas -/

theorem score_eq_in_range (p q : ℚ) (c : ℤ) (h1 : 0 < c) (h2 : c ≤ CTX_CAP) :
    score p q c = (((W_IN * p + W_OUT * q) / ((c : ℚ) / (BASE_CTX : ℚ)) : ℚ) : WithTop ℚ) := by
  have hn : ¬ c ≤ 0 := not_le.mpr h1
  have hmin : min c CTX_CAP = c := min_eq_left h2
  have hd : (0:ℚ) < (c : ℚ) / (BASE_CTX : ℚ) :=
    div_pos (by exact_mod_cast h1) (by norm_num [BASE_CTX])
  simp only [score, if_neg hn, hmin, if_pos hd]

theorem score_zero_prices (c : ℤ) (h : 1 ≤ c) : score 0 0 c = ((0:ℚ) : WithTop ℚ) := by
  have hn : ¬ c ≤ 0 := by omega
  have hmin : (0:ℤ) < min c CTX_CAP := lt_min (by omega) (by decide)
  have hd : (0:ℚ) < ((min c CTX_CAP : ℤ) : ℚ) / (BASE_CTX : ℚ) :=
    div_pos (by exact_mod_cast hmin) (by norm_num [BASE_CTX])
  simp only [score, if_neg hn, if_pos hd, W_IN, W_OUT]
  norm_num

theorem score_strict_anti (p_in p_out : ℚ) (hp : 0 ≤ p_in) (hq : 0 ≤ p_out)
    (hpos : 0 < p_in ∨ 0 < p_out) (c1 c2 : ℤ) (h1 : 1 ≤ c1) (h12 : c1 < c2)
    (h2 : c2 ≤ CTX_CAP) : score p_in p_out c2 < score p_in p_out c1 := by
  rw [score_eq_in_range p_in p_out c1 (by omega) (le_of_lt (lt_of_lt_of_le h12 h2)),
    score_eq_in_range p_in p_out c2 (by omega) h2, WithTop.coe_lt_coe]
  have havg : 0 < W_IN * p_in + W_OUT * p_out := by
    rw [W_IN, W_OUT]
    rcases hpos with h | h <;> nlinarith
  have hb : (0:ℚ) < (BASE_CTX : ℚ) := by norm_num [BASE_CTX]
  have hd1 : (0:ℚ) < (c1 : ℚ) / (BASE_CTX : ℚ) :=
    div_pos (by exact_mod_cast (by omega : (0:ℤ) < c1)) hb
  have hlt : (c1 : ℚ) / (BASE_CTX : ℚ) < (c2 : ℚ) / (BASE_CTX : ℚ) := by
    have hc : (c1 : ℚ) < (c2 : ℚ) := by exact_mod_cast h12
    exact (div_lt_div_iff_of_pos_right hb).mpr hc
  exact div_lt_div_of_pos_left havg hd1 hlt

theorem score_const_above_cap (p q : ℚ) (c1 c2 : ℤ) (h1 : CTX_CAP ≤ c1) (h2 : CTX_CAP ≤ c2) :
    score p q c1 = score p q c2 := by
  have hc1 : ¬ c1 ≤ 0 := by rw [CTX_CAP] at h1; omega
  have hc2 : ¬ c2 ≤ 0 := by rw [CTX_CAP] at h2; omega
  have hm1 : min c1 CTX_CAP = CTX_CAP := min_eq_right h1
  have hm2 : min c2 CTX_CAP = CTX_CAP := min_eq_right h2
  simp only [score, if_neg hc1, if_neg hc2, hm1, hm2]

/-- Claim C5: for positive context the score is
`(0.5·price_in + 0.5·price_out) / (min(ctx, 524288) / 8000)`, and for
non-positive context it is infinite. -/
theorem score_formula (p_in p_out : ℚ) (ctx : ℤ) :
    (0 < ctx → score p_in p_out ctx
        = (((1/2 * p_in + 1/2 * p_out) / (((min ctx 524288 : ℤ) : ℚ) / 8000) : ℚ) : WithTop ℚ))
      ∧ (ctx ≤ 0 → score p_in p_out ctx = ⊤) := by
  constructor
  · intro h
    have hcap : (524288 : ℤ) = CTX_CAP := by rw [CTX_CAP]
    by_cases hle : ctx ≤ CTX_CAP
    · rw [score_eq_in_range p_in p_out ctx h hle]
      rw [hcap, min_eq_left hle, W_IN, W_OUT, BASE_CTX]
      norm_num
    · have hge : CTX_CAP ≤ ctx := le_of_not_le hle
      have hn : ¬ ctx ≤ 0 := not_le.mpr h
      have hm : min ctx CTX_CAP = CTX_CAP := min_eq_right hge
      have hd : (0:ℚ) < ((min ctx CTX_CAP : ℤ) : ℚ) / (BASE_CTX : ℚ) := by
        rw [hm]
        norm_num [CTX_CAP, BASE_CTX]
      simp only [score, if_neg hn, if_pos hd]
      rw [hcap, hm, W_IN, W_OUT, BASE_CTX]
      norm_num
  · intro h
    simp [score, h]

/-- Counterexample to claim C1 as stated: at the non-negative price pair
(0, 0) the score is not strictly decreasing on [1, CTX_CAP] — it is equal
at contexts 1 and 2. -/
theorem score_claim_counterexample :
    (0:ℚ) ≤ 0 ∧ (1:ℤ) ≤ 1 ∧ (1:ℤ) < 2 ∧ (2:ℤ) ≤ CTX_CAP
      ∧ score 0 0 1 = score 0 0 2
      ∧ ¬ score 0 0 2 < score 0 0 1 := by
  have h1 : score 0 0 1 = ((0:ℚ) : WithTop ℚ) := score_zero_prices 1 (by decide)
  have h2 : score 0 0 2 = ((0:ℚ) : WithTop ℚ) := score_zero_prices 2 (by decide)
  refine ⟨le_refl 0, by decide, by decide, by decide, by rw [h1, h2], ?_⟩
  rw [h1, h2]
  exact lt_irrefl _

/-- Claim C1 (amended): for fixed non-negative prices with at least one
price strictly positive, the score is strictly decreasing in context on
[1, CTX_CAP]; when both prices are zero the score is constantly 0 for every
positive context; and at or above the cap the score no longer depends on
the context at all. -/
theorem score_monotonicity_amended :
    (∀ p_in p_out : ℚ, 0 ≤ p_in → 0 ≤ p_out → (0 < p_in ∨ 0 < p_out) →
        ∀ c1 c2 : ℤ, 1 ≤ c1 → c1 < c2 → c2 ≤ CTX_CAP →
          score p_in p_out c2 < score p_in p_out c1)
      ∧ (∀ c : ℤ, 1 ≤ c → score 0 0 c = ((0:ℚ) : WithTop ℚ))
      ∧ (∀ p_in p_out : ℚ, ∀ c1 c2 : ℤ, CTX_CAP ≤ c1 → CTX_CAP ≤ c2 →
          score p_in p_out c1 = score p_in p_out c2) :=
  ⟨fun p q hp hq hpos c1 c2 h1 h12 h2 => score_strict_anti p q hp hq hpos c1 c2 h1 h12 h2,
    fun c h => score_zero_prices c h,
    fun p q c1 c2 h1 h2 => score_const_above_cap p q c1 c2 h1 h2⟩

/-! ## Router-detection (claim C6) -/

/-- The router rule as the claim words it: the lowercased concatenation of
id and name (joined the way the code joins them) starts with the known
router prefix, contains `router` as a standalone space-delimited token, or
ends in `/auto`. -/
def is_router_claimed (mid name : Option Str) : Bool :=
  let s := joined mid name
  decide ("openrouter/auto".toList <+: s) || decide ("router".toList ∈ s.splitOn ' ')
    || decide ("/auto".toList <:+ s)

/-- The router rule as amended: the `router` condition is the substring
`" router"` (a space immediately followed by `router`), not a standalone
token. -/
def is_router_amended (mid name : Option Str) : Bool :=
  let s := joined mid name
  decide ("openrouter/auto".toList <+: s) || decide (" router".toList <:+: s)
    || decide ("/auto".toList <:+ s)

/-- Counterexample to claim C6 as stated: the record with id `acme/model`
and name `routerx` contains no standalone token `router`, yet the code
treats it as a router and drops it. -/
theorem is_router_claim_counterexample :
    is_router_claimed (Option.some "acme/model".toList) (Option.some "routerx".toList) = false
      ∧ is_router (Option.some "acme/model".toList) (Option.some "routerx".toList) = true
      ∧ mkRow ⟨Option.some "acme/model".toList, Option.some "routerx".toList,
          Option.some 8000, Option.none, PriceField.num 1, PriceField.num 1⟩
          = Option.none := by
  refine ⟨by decide, by decide, ?_⟩
  rw [mkRow]
  rw [if_pos (by decide)]

/-- Claim C6 (amended): a record is excluded as a router exactly when the
lowercased space-joined concatenation of its id and name starts with
`openrouter/auto`, contains the substring `" router"`, or ends with
`/auto`; and every record so detected is dropped from the row set. -/
theorem is_router_spec :
    (∀ mid name : Option Str, is_router mid name = is_router_amended mid name)
      ∧ (∀ m : RawModel, is_router m.id m.name = true → mkRow m = Option.none) := by
  constructor
  · intro mid name
    rfl
  · intro m h
    rw [mkRow, if_pos h]

/-! ## Best-per-family (claim C7) -/

theorem perm_pair_cases {α : Type} (l : List α) (x y : α) (h : l.Perm [x, y]) :
    l = [x, y] ∨ l = [y, x] := by
  have hlen : l.length = 2 := h.length_eq
  rcases l with _ | ⟨a, l2⟩
  · simp at hlen
  rcases l2 with _ | ⟨b, l3⟩
  · simp at hlen
  rcases l3 with _ | ⟨c, l4⟩
  · have ha : a ∈ ([x, y] : List α) := h.mem_iff.mp (List.mem_cons_self a [b])
    rcases List.mem_cons.mp ha with hax | ha2
    · left
      rw [hax] at h ⊢
      have h2 : ([b] : List α).Perm [y] := h.cons_inv
      rw [List.perm_singleton.mp h2]
    · have hay : a = y := by
        rcases List.mem_cons.mp ha2 with h3 | h3
        · exact h3
        · cases h3
      right
      rw [hay] at h ⊢
      have h2 : ([b] : List α).Perm [x] :=
        (h.trans (List.Perm.swap x y []).symm).cons_inv
      rw [List.perm_singleton.mp h2]
  · simp at hlen

theorem distinctByAux_first_occ {α κ : Type} (key : α → κ) [DecidableEq κ]
    (seen : List κ) (l : List α) :
    ∀ x ∈ distinctByAux key seen l,
      ∃ t, l.filter (fun y => decide (key y = key x)) = x :: t := by
  induction l generalizing seen with
  | nil => intro x hx; cases hx
  | cons z zs ih =>
    intro x hx
    rw [distinctByAux] at hx
    split_ifs at hx with hz
    · have hxn := (distinctByAux_mem key seen zs x hx).2
      have hne : ¬ key z = key x := fun he => hxn (he ▸ hz)
      rcases ih seen x hx with ⟨t, ht⟩
      refine ⟨t, ?_⟩
      rw [List.filter_cons, if_neg (by simp [hne])]
      exact ht
    · rcases List.mem_cons.mp hx with hxz | hx2
      · refine ⟨zs.filter (fun y => decide (key y = key x)), ?_⟩
        rw [List.filter_cons, if_pos (by simp [hxz])]
        rw [hxz]
      · have hxn := (distinctByAux_mem key (key z :: seen) zs x hx2).2
        have hne : ¬ key z = key x := fun he => hxn (he ▸ List.mem_cons_self _ _)
        rcases ih (key z :: seen) x hx2 with ⟨t, ht⟩
        refine ⟨t, ?_⟩
        rw [List.filter_cons, if_neg (by simp [hne])]
        exact ht

theorem groupFirst_eq_of_present (models : List RawModel) (h : Row)
    (hh : h ∈ distinctBy Row.family ((rows models).mergeSort leFam))
    (hid : h.id ≠ Option.none) (hname : h.name ≠ Option.none) :
    groupFirst ((rows models).mergeSort leFam) h = h := by
  rcases distinctByAux_first_occ Row.family [] _ h hh with ⟨t, ht⟩
  simp only [groupFirst]
  rw [ht]
  cases hid2 : h.id with
  | none => exact absurd hid2 hid
  | some v =>
    cases hname2 : h.name with
    | none => exact absurd hname2 hname
    | some w =>
      have h3 : ((h :: t).filterMap Row.id).head? = Option.some v := by
        rw [List.filterMap_cons]
        simp [hid2]
      have h4 : ((h :: t).filterMap Row.name).head? = Option.some w := by
        rw [List.filterMap_cons]
        simp [hname2]
      rw [h3, h4, ← hid2, ← hname2]

/-! ### A concrete input on which groupby-first back-fills -/

/-- A valid record published without `id` and `name` (family `""`). -/
def demoModel1 : RawModel :=
  { id := Option.none, name := Option.none, topProviderCtx := Option.some 8000,
    contextLength := Option.none, promptPrice := PriceField.num 1,
    completionPrice := PriceField.num 1 }

/-- A valid record of the same family `""` (empty id string, name `b`),
twice as expensive. -/
def demoModel2 : RawModel :=
  { id := Option.some [], name := Option.some "b".toList,
    topProviderCtx := Option.some 8000, contextLength := Option.none,
    promptPrice := PriceField.num 2, completionPrice := PriceField.num 2 }

/-- The two-record catalog `[demoModel1, demoModel2]`. -/
def demoModels : List RawModel := [demoModel1, demoModel2]

/-- The normalized row of `demoModel1`: score 1, null id and name. -/
def demoRow1 : Row :=
  { id := Option.none, name := Option.none, family := [], context := 8000,
    price_in := 1, price_out := 1, score := ((1:ℚ) : WithTop ℚ), free := false }

/-- The normalized row of `demoModel2`: score 2. -/
def demoRow2 : Row :=
  { id := Option.some [], name := Option.some "b".toList, family := [],
    context := 8000, price_in := 2, price_out := 2,
    score := ((2:ℚ) : WithTop ℚ), free := false }

/-- What groupby-first emits for the single family group: `demoRow1`'s
numeric columns with `demoRow2`'s id and name back-filled — a row of
neither input record. -/
def demoChimera : Row :=
  { id := Option.some [], name := Option.some "b".toList, family := [],
    context := 8000, price_in := 1, price_out := 1,
    score := ((1:ℚ) : WithTop ℚ), free := false }

theorem rndHalfEven_intCast (n : ℤ) : rndHalfEven (n : ℚ) = n := by
  rw [rndHalfEven]
  norm_num [Int.floor_intCast]

theorem pyRound_one : pyRound 1 12 = 1 := by
  rw [pyRound]
  rw [show (1:ℚ) * 10 ^ 12 = ((10 ^ 12 : ℤ) : ℚ) by norm_num]
  rw [rndHalfEven_intCast]
  norm_num

theorem pyRound_two : pyRound 2 12 = 2 := by
  rw [pyRound]
  rw [show (2:ℚ) * 10 ^ 12 = ((2 * 10 ^ 12 : ℤ) : ℚ) by norm_num]
  rw [rndHalfEven_intCast]
  norm_num

theorem score_demo1 :
    WithTop.map (fun q => pyRound q 12) (score 1 1 8000) = ((1:ℚ) : WithTop ℚ) := by
  rw [score_eq_in_range 1 1 8000 (by decide) (by decide), WithTop.map_coe,
    WithTop.coe_eq_coe]
  rw [show (W_IN * 1 + W_OUT * 1) / (((8000:ℤ) : ℚ) / (BASE_CTX : ℚ)) = (1:ℚ) by
    norm_num [W_IN, W_OUT, BASE_CTX]]
  exact pyRound_one

theorem score_demo2 :
    WithTop.map (fun q => pyRound q 12) (score 2 2 8000) = ((2:ℚ) : WithTop ℚ) := by
  rw [score_eq_in_range 2 2 8000 (by decide) (by decide), WithTop.map_coe,
    WithTop.coe_eq_coe]
  rw [show (W_IN * 2 + W_OUT * 2) / (((8000:ℤ) : ℚ) / (BASE_CTX : ℚ)) = (2:ℚ) by
    norm_num [W_IN, W_OUT, BASE_CTX]]
  exact pyRound_two

theorem mkRow_demo1 : mkRow demoModel1 = Option.some demoRow1 := by
  have step : mkRow demoModel1 = Option.some
      { demoRow1 with score := WithTop.map (fun q => pyRound q 12) (score 1 1 8000) } := rfl
  rw [step, score_demo1]
  rfl

theorem mkRow_demo2 : mkRow demoModel2 = Option.some demoRow2 := by
  have step : mkRow demoModel2 = Option.some
      { demoRow2 with score := WithTop.map (fun q => pyRound q 12) (score 2 2 8000) } := rfl
  rw [step, score_demo2]
  rfl

theorem rows_demo : rows demoModels = [demoRow1, demoRow2] := by
  simp only [rows, demoModels, List.filterMap_cons, mkRow_demo1, mkRow_demo2,
    List.filterMap_nil]

theorem sorted_demo : (rows demoModels).mergeSort leFam = [demoRow1, demoRow2] := by
  have hperm : ((rows demoModels).mergeSort leFam).Perm [demoRow1, demoRow2] := by
    rw [← rows_demo]
    exact List.mergeSort_perm _ leFam
  rcases perm_pair_cases _ demoRow1 demoRow2 hperm with h | h
  · exact h
  · exfalso
    have hpw := sortedFam_pairwise demoModels
    rw [h] at hpw
    have h2 : leFam demoRow2 demoRow1 = true :=
      (List.pairwise_cons.mp hpw).1 demoRow1 (List.mem_cons_self _ _)
    exact absurd h2 (by decide)

theorem best_per_family_demo : best_per_family demoModels = [demoChimera] := by
  simp only [best_per_family]
  rw [sorted_demo]
  rw [show distinctBy Row.family [demoRow1, demoRow2] = [demoRow1] by decide]
  rw [show [demoRow1].map (groupFirst [demoRow1, demoRow2]) = [demoChimera] by decide]
  exact List.perm_singleton.mp (List.mergeSort_perm [demoChimera] leScore)

/-- Counterexample to claim C7 as stated: on `demoModels` the single family
group's first element under the ordering is `demoRow1` (null id/name,
score 1), but the emitted best-per-family row is a back-filled chimera that
differs from it and belongs to no row of the normalized set. -/
theorem best_per_family_claim_counterexample :
    rows demoModels = [demoRow1, demoRow2]
      ∧ best_per_family demoModels = [demoChimera]
      ∧ demoRow1.family = demoRow2.family
      ∧ le10 demoRow1 demoRow2 = true
      ∧ demoChimera ≠ demoRow1
      ∧ demoChimera ∉ rows demoModels := by
  refine ⟨rows_demo, best_per_family_demo, by decide, by decide, by decide, ?_⟩
  rw [rows_demo]
  decide

/-- Claim C7 (amended): the best-per-family view has exactly one row per
family of the normalized set (no family twice, no family missing); each of
its rows takes its family, context, prices, score and free flag from a
normalized row that is minimal in its family group under the
(score, price_in, price_out, context desc) ordering, with its id and name
columns being the group's first non-null id and name (so the row is exactly
that minimal group element whenever that element's id and name are
present); and the view is sorted by score ascending. -/
theorem best_per_family_spec_amended (models : List RawModel) :
    ((best_per_family models).map Row.family).Nodup
      ∧ (∀ f : Str, f ∈ (best_per_family models).map Row.family
          ↔ f ∈ (rows models).map Row.family)
      ∧ (∀ r ∈ best_per_family models, ∃ h, h ∈ rows models
          ∧ h.family = r.family ∧ h.context = r.context ∧ h.price_in = r.price_in
          ∧ h.price_out = r.price_out ∧ h.score = r.score ∧ h.free = r.free
          ∧ (∀ y ∈ rows models, y.family = h.family → le10 h y = true)
          ∧ r = groupFirst ((rows models).mergeSort leFam) h
          ∧ (h.id ≠ Option.none → h.name ≠ Option.none → r = h))
      ∧ (best_per_family models).Pairwise (fun a b => a.score ≤ b.score) := by
  have hmap : ((distinctBy Row.family ((rows models).mergeSort leFam)).map
        (groupFirst ((rows models).mergeSort leFam))).map Row.family
      = (distinctBy Row.family ((rows models).mergeSort leFam)).map Row.family := by
    rw [List.map_map]
    exact List.map_congr_left (fun x _ => rfl)
  have hperm1 : ((rows models).mergeSort leFam).Perm (rows models) :=
    List.mergeSort_perm (rows models) leFam
  have hperm2 :
      (best_per_family models).Perm
        ((distinctBy Row.family ((rows models).mergeSort leFam)).map
          (groupFirst ((rows models).mergeSort leFam))) :=
    List.mergeSort_perm _ leScore
  refine ⟨?_, ?_, ?_, ?_⟩
  · have hnd : ((distinctBy Row.family ((rows models).mergeSort leFam)).map Row.family).Nodup :=
      distinctByAux_keys_nodup Row.family [] _
    refine ((hperm2.map Row.family).nodup_iff).mpr ?_
    rw [hmap]
    exact hnd
  · intro f
    rw [(hperm2.map Row.family).mem_iff, hmap]
    rw [distinctBy] at *
    rw [distinctByAux_keys_mem Row.family [] _ f]
    rw [(hperm1.map Row.family).mem_iff]
    simp
  · intro r hr
    rcases best_per_family_provenance models r hr with ⟨h, hhD, hhR, heq, hmin⟩
    refine ⟨h, hhR, by rw [heq]; rfl, by rw [heq]; rfl, by rw [heq]; rfl,
      by rw [heq]; rfl, by rw [heq]; rfl, by rw [heq]; rfl, hmin, heq, ?_⟩
    intro hid hname
    rw [heq]
    exact groupFirst_eq_of_present models h hhD hid hname
  · have hpw : (best_per_family models).Pairwise (fun a b => leScore a b = true) :=
      List.sorted_mergeSort leScore_trans leScore_total _
    refine hpw.imp ?_
    intro a b h
    rw [leScore] at h
    exact decide_eq_true_iff.mp h

end Clia
